import Mathlib

/-!
Verification development for the expense-tracker repository.

The code under scrutiny is a client-side React component
(src/pages/index.js and its decorated twin src/unnamed/part_000) holding a
ledger of transactions.  The component's logic is embedded shallowly:

* JavaScript numbers carrying transaction amounts are modelled by `JSNum`:
  an exact rational or the distinguished `nan` value produced by failed
  parsing.  Comparisons against `nan` are false and additions involving
  `nan` yield `nan`, matching IEEE comparison/arithmetic semantics used by
  the code.  Infinities and rounding of binary floats are outside the model;
  the claims under study only involve NaN and exactly representable values.
* `parseFloatJS` models JavaScript parseFloat on plain decimal notation
  (optional sign, digits, optional fraction, trailing junk ignored,
  NaN when no digit is found); exponent notation is not modelled since the
  tracker's data never uses it.
* `ratToDecString` models the String conversion JavaScript applies when
  Papa.unparse and JSON.stringify serialise a number: shortest plain
  decimal form, computed with a fuel bound on the fraction digits.
* Papa.unparse/Papa.parse are modelled by `papaUnparseRows` and
  `scanRecords`: CSV with fields escaped exactly as papaparse does
  (quote doubling; quoting when the field holds a quote, delimiter,
  CR, LF, BOM, or a leading/trailing space) and a one-pass parsing
  state machine over the characters.
* The component state (ledger, form fields, dark mode) together with the
  browser local storage is `AppState`; user events are the functions
  `handleAddTransaction`, `handleDeleteTransaction`, `importCSV`, the dark
  toggle, each followed by the persistence effect that rewrites the
  "transactions" storage key wholesale, per the useEffect hooks.
-/

/-- A JavaScript number as used by the tracker: an exact rational value or
NaN (the result of a failed parse). -/
inductive JSNum where
  | num (q : ℚ)
  | nan
deriving DecidableEq, Repr

namespace JSNum

/-- JavaScript strict less-than: comparisons involving NaN are false. -/
def jlt : JSNum → JSNum → Bool
  | num a, num b => decide (a < b)
  | _, _ => false

/-- JavaScript strict greater-than: comparisons involving NaN are false. -/
def jgt : JSNum → JSNum → Bool
  | num a, num b => decide (b < a)
  | _, _ => false

/-- JavaScript addition: NaN is absorbing. -/
def jadd : JSNum → JSNum → JSNum
  | num a, num b => num (a + b)
  | _, _ => nan

/-- Math.abs: NaN maps to NaN. -/
def jabs : JSNum → JSNum
  | num a => num |a|
  | nan => nan

/-- JavaScript truthiness of a number: 0 and NaN are falsy. -/
def truthy : JSNum → Bool
  | num a => decide (a ≠ 0)
  | nan => false

/-- Number.isNaN. -/
def isNan : JSNum → Bool
  | num _ => false
  | nan => true

/-- The rational value of a non-NaN number (0 for NaN; used only on the
spec side, never reached on NaN in the proofs). -/
def toQ : JSNum → ℚ
  | num a => a
  | nan => 0

end JSNum

open JSNum

/-- One ledger entry, as stored in the component state. -/
structure Transaction where
  description : String
  amount : JSNum
  category : String
deriving DecidableEq, Repr

/-- income: `transactions.filter(tx => tx.amount > 0).reduce((acc, tx) => acc + tx.amount, 0)`. -/
def income (transactions : List Transaction) : JSNum :=
  (transactions.filter (fun tx => jgt tx.amount (num 0))).foldl
    (fun acc tx => jadd acc tx.amount) (num 0)

/-- expenses: `transactions.filter(tx => tx.amount < 0).reduce((acc, tx) => acc + tx.amount, 0)`. -/
def expenses (transactions : List Transaction) : JSNum :=
  (transactions.filter (fun tx => jlt tx.amount (num 0))).foldl
    (fun acc tx => jadd acc tx.amount) (num 0)

/-- balance: `income + expenses`. -/
def balance (transactions : List Transaction) : JSNum :=
  jadd (income transactions) (expenses transactions)

/-- One step of the `reduce` building `expenseByCategory`: the JS object is
an insertion-ordered association list; `if (acc[tx.category])` tests
truthiness of the stored value, and assignment to an existing key keeps its
position. -/
def stepCat (acc : List (String × JSNum)) (tx : Transaction) : List (String × JSNum) :=
  match acc.lookup tx.category with
  | some v =>
      if truthy v then setVal acc tx.category (jadd v (jabs tx.amount))
      else setVal acc tx.category (jabs tx.amount)
  | none => setVal acc tx.category (jabs tx.amount)
where
  /-- JS object property assignment on an insertion-ordered association
  list: overwrite in place if the key exists, else append. -/
  setVal : List (String × JSNum) → String → JSNum → List (String × JSNum)
  | [], k, v => [(k, v)]
  | (k', v') :: t, k, v => if k' = k then (k', v) :: t else (k', v') :: setVal t k v

/-- expenseByCategory: negative transactions reduced into a keyed object of
absolute-value sums. -/
def expenseByCategory (transactions : List Transaction) : List (String × JSNum) :=
  (transactions.filter (fun tx => jlt tx.amount (num 0))).foldl stepCat []

/-- A pie chart datum produced from one key of `expenseByCategory`. -/
structure ChartEntry where
  name : String
  value : JSNum
deriving DecidableEq, Repr

/-- chartData: `Object.keys(expenseByCategory).map(key => (name, value))`;
`Object.keys` on non-index string keys follows insertion order. -/
def chartData (transactions : List Transaction) : List ChartEntry :=
  (expenseByCategory transactions).map (fun p => ChartEntry.mk p.1 p.2)

/-- The chart value displayed for a category: the value of the first chart
entry named c, if any. -/
def chartValue (transactions : List Transaction) (c : String) : Option JSNum :=
  ((chartData transactions).find? (fun e => e.name == c)).map (fun e => e.value)

/-- handleDeleteTransaction: `transactions.filter((_, i) => i !== index)`.
The index argument is an arbitrary JS number, modelled as an integer. -/
def handleDeleteTransaction (transactions : List Transaction) (index : ℤ) : List Transaction :=
  ((transactions.enum.filter (fun p => (p.1 : ℤ) ≠ index)).map (fun p => p.2))

/-- natOfDigits: the value of a big-endian digit list. -/
def natOfDigits (ds : List ℕ) : ℕ := ds.foldl (fun a d => 10 * a + d) 0

/-- Longest prefix of decimal digits, with the rest of the input. -/
def takeDigits : List Char → List ℕ × List Char
  | [] => ([], [])
  | c :: r =>
      if c.isDigit then
        ((c.toNat - 48) :: (takeDigits r).1, (takeDigits r).2)
      else ([], c :: r)

/-- parseFloat on plain decimal notation: optional leading whitespace and
sign, integer digits, optional fractional digits after a point, everything
after that ignored; NaN when no digit was read.  Exponent notation is not
modelled. -/
def parseFloatJS (s : String) : JSNum :=
  let cs := s.data.dropWhile (fun c => c = ' ' || c = '\t' || c = '\n' || c = '\r')
  let sgn : Bool × List Char :=
    match cs with
    | '-' :: r => (true, r)
    | '+' :: r => (false, r)
    | _ => (false, cs)
  let ip := takeDigits sgn.2
  let fp :=
    match ip.2 with
    | '.' :: r => takeDigits r
    | _ => ([], ip.2)
  if ip.1 = [] ∧ fp.1 = [] then JSNum.nan
  else
    let m : ℤ := (natOfDigits ip.1 * 10 ^ fp.1.length + natOfDigits fp.1 : ℕ)
    JSNum.num (mkRat (if sgn.1 then -m else m) (10 ^ fp.1.length))

/-- Digits of the decimal expansion of n / d (with n < d), fuel-bounded;
`none` when the expansion does not terminate within the fuel. -/
def digitsOfFrac (n d : ℕ) : ℕ → Option (List ℕ)
  | 0 => if n = 0 then some [] else none
  | fuel + 1 =>
      if n = 0 then some []
      else (digitsOfFrac (n * 10 % d) d fuel).map (fun ds => n * 10 / d :: ds)

/-- Fuel for decimal rendering; far beyond the 1074 fraction digits any
IEEE double can need. -/
def decFuel : ℕ := 1200

/-- Decimal string of a nonnegative rational, shortest form, as produced
by JavaScript String() on the doubles the tracker handles. -/
def ratToDecStringNonneg (q : ℚ) : String :=
  match digitsOfFrac (q.num.toNat % q.den) q.den decFuel with
  | some [] => toString (q.num.toNat / q.den)
  | some ds => toString (q.num.toNat / q.den) ++ "." ++
      String.mk (ds.map (fun k => Char.ofNat (48 + k)))
  | none => toString (q.num.toNat / q.den) ++ ".#"

/-- Decimal string of a rational (JavaScript String() on a double). -/
def ratToDecString (q : ℚ) : String :=
  if q < 0 then "-" ++ ratToDecStringNonneg (-q) else ratToDecStringNonneg q

/-- String conversion of a JS number, as applied by Papa.unparse. -/
def jsNumToString : JSNum → String
  | JSNum.num q => ratToDecString q
  | JSNum.nan => "NaN"

/-- Doubles every quote character, as papaparse's quote escaping does. -/
def escQuoteC : List Char → List Char
  | [] => []
  | c :: r => if c = '"' then '"' :: '"' :: escQuoteC r else c :: escQuoteC r

/-- Papa.unparse quotes a field when it holds a quote, the delimiter, CR,
LF, a byte-order mark, or starts or ends with a space. -/
def needsQuotesC (s : List Char) : Bool :=
  s.any (fun c => c = '"' || c = ',' || c = '\r' || c = '\n' || c = '﻿')
    || s.head? == some ' ' || s.getLast? == some ' '

/-- Field serialisation of Papa.unparse (quote doubling plus conditional
quoting). -/
def escapeFieldC (s : List Char) : List Char :=
  if needsQuotesC s then '"' :: (escQuoteC s ++ ['"']) else s

/-- One CSV record: escaped fields joined by the comma delimiter. -/
def rowCharsC (fields : List String) : List Char :=
  List.intercalate [','] (fields.map (fun f => escapeFieldC f.data))

/-- Papa.unparse body: records joined by CRLF, no trailing newline. -/
def papaUnparseRows (rows : List (List String)) : List Char :=
  List.intercalate ['\r', '\n'] (rows.map rowCharsC)

/-- The CSV row Papa.unparse derives from one transaction object, in the
key order of the object literal. -/
def txRow (tx : Transaction) : List String :=
  [tx.description, jsNumToString tx.amount, tx.category]

/-- handleExportCSV's produced file content: `Papa.unparse(transactions)`.
With an empty array there are no keys to derive a header from and the
output is empty; otherwise the header row precedes one row per record. -/
def exportCSV (transactions : List Transaction) : String :=
  if transactions = [] then ""
  else String.mk (papaUnparseRows
    (["description", "amount", "category"] :: transactions.map txRow))

/-- Closes the field accumulated (in reverse) by the scanner. -/
def endField (fld : List Char) : String := String.mk fld.reverse

/-- The CSV reader's automaton state: outside quotes, inside a quoted
section, just after a quote inside a quoted section (which either escapes
a second quote or closes the section), or just after a CR (so that a
following LF is part of the same record break). -/
inductive ScanMode where
  | normal
  | quoted
  | quoteEnd
  | afterCR
deriving DecidableEq, Repr

/-- One-pass CSV reader modelling Papa.parse's core: `fld` is the current
field (reversed), `row` the fields finished so far in the current record.
A doubled quote inside quotes is a literal quote; a quote opens a quoted
section only at field start; CRLF, LF and CR all end a record. -/
def scanRecords (m : ScanMode) (fld : List Char) (row : List String) :
    List Char → List (List String)
  | [] => [row ++ [endField fld]]
  | c :: rest =>
      match m with
      | ScanMode.quoted =>
          if c = '"' then scanRecords ScanMode.quoteEnd fld row rest
          else scanRecords ScanMode.quoted (c :: fld) row rest
      | ScanMode.quoteEnd =>
          if c = '"' then scanRecords ScanMode.quoted ('"' :: fld) row rest
          else if c = ',' then scanRecords ScanMode.normal [] (row ++ [endField fld]) rest
          else if c = '\r' then (row ++ [endField fld]) :: scanRecords ScanMode.afterCR [] [] rest
          else if c = '\n' then (row ++ [endField fld]) :: scanRecords ScanMode.normal [] [] rest
          else scanRecords ScanMode.normal (c :: fld) row rest
      | ScanMode.afterCR =>
          if c = '\n' then scanRecords ScanMode.normal fld row rest
          else if c = '"' ∧ fld = [] then scanRecords ScanMode.quoted [] row rest
          else if c = ',' then scanRecords ScanMode.normal [] (row ++ [endField fld]) rest
          else if c = '\r' then (row ++ [endField fld]) :: scanRecords ScanMode.afterCR [] [] rest
          else scanRecords ScanMode.normal (c :: fld) row rest
      | ScanMode.normal =>
          if c = '"' ∧ fld = [] then scanRecords ScanMode.quoted [] row rest
          else if c = ',' then scanRecords ScanMode.normal [] (row ++ [endField fld]) rest
          else if c = '\r' then (row ++ [endField fld]) :: scanRecords ScanMode.afterCR [] [] rest
          else if c = '\n' then (row ++ [endField fld]) :: scanRecords ScanMode.normal [] [] rest
          else scanRecords ScanMode.normal (c :: fld) row rest

/-- Papa.parse of a whole text into records of fields; empty input yields
no records. -/
def papaParse (cs : List Char) : List (List String) :=
  if cs = [] then [] else scanRecords ScanMode.normal [] [] cs

/-- With `header: true` Papa names each row's fields after the header
row; a missing column is an absent (undefined) property. -/
def rowLookup (hdr row : List String) (key : String) : Option String :=
  let i := hdr.indexOf key
  if i < hdr.length then row.get? i else none

/-- handleImportCSV's pure core: parse the file text with a header row and
map every data row to a transaction — `description: tx.description`,
`amount: parseFloat(tx.amount)`, `category: tx.category || "Other"`.
An absent property behaves like the empty string here: both are falsy for
the category default, and parseFloat yields NaN on both "" and
"undefined". -/
def importCSV (s : String) : List Transaction :=
  match papaParse s.data with
  | [] => []
  | hdr :: rows =>
      rows.map (fun row =>
        { description := (rowLookup hdr row "description").getD ""
          amount := parseFloatJS ((rowLookup hdr row "amount").getD "")
          category :=
            let c := (rowLookup hdr row "category").getD ""
            if c = "" then "Other" else c })

/-- JSON string escaping (the cases JSON.stringify uses for the data at
hand: backslash, quote, and the common control characters). -/
def jsonEscape (s : String) : String :=
  String.mk (s.data.foldr (fun c acc =>
    if c = '"' then '\\' :: '"' :: acc
    else if c = '\\' then '\\' :: '\\' :: acc
    else if c = '\n' then '\\' :: 'n' :: acc
    else if c = '\r' then '\\' :: 'r' :: acc
    else if c = '\t' then '\\' :: 't' :: acc
    else c :: acc) [])

/-- JSON.stringify of an amount: NaN serialises as null. -/
def jsonNumber : JSNum → String
  | JSNum.num q => ratToDecString q
  | JSNum.nan => "null"

/-- JSON.stringify of one transaction object, keys in insertion order. -/
def stringifyTx (tx : Transaction) : String :=
  "\x7b\"description\":\"" ++ jsonEscape tx.description ++ "\",\"amount\":"
    ++ jsonNumber tx.amount ++ ",\"category\":\"" ++ jsonEscape tx.category ++ "\"\x7d"

/-- JSON.stringify of the transaction array. -/
def stringifyTransactions (transactions : List Transaction) : String :=
  "[" ++ String.intercalate "," (transactions.map stringifyTx) ++ "]"

/-- Browser localStorage setItem on an association-list model of the
string store. -/
def setItem : List (String × String) → String → String → List (String × String)
  | [], k, v => [(k, v)]
  | (k', v') :: t, k, v => if k' = k then (k', v) :: t else (k', v') :: setItem t k v

/-- The component state plus the browser-local storage it persists to. -/
structure AppState where
  transactions : List Transaction
  description : String
  amount : String
  category : String
  darkMode : Bool
  storage : List (String × String)
deriving DecidableEq, Repr

/-- The save useEffect on [transactions]: a wholesale overwrite of the
"transactions" key with the JSON of the full current ledger. -/
def persistTx (st : AppState) : AppState :=
  { st with storage := setItem st.storage "transactions" (stringifyTransactions st.transactions) }

/-- The save useEffect on [darkMode]. -/
def persistDark (st : AppState) : AppState :=
  { st with storage := setItem st.storage "darkMode" (if st.darkMode then "true" else "false") }

/-- handleAddTransaction: an early return when description or amount is
empty (the empty string is the only falsy string); otherwise append the
parsed record and reset the three form fields. -/
def handleAddTransaction (st : AppState) : AppState :=
  if st.description = "" ∨ st.amount = "" then st
  else
    { st with
      transactions := st.transactions ++
        [⟨st.description, parseFloatJS st.amount, st.category⟩]
      description := ""
      amount := ""
      category := "Other" }

/-- The form submit event: the add handler, and — when it changed the
ledger — the persistence effect. -/
def submitEvent (st : AppState) : AppState :=
  if st.description = "" ∨ st.amount = "" then st
  else persistTx (handleAddTransaction st)

/-- A click on a row's delete button, followed by the persistence effect. -/
def deleteEvent (st : AppState) (index : ℤ) : AppState :=
  persistTx { st with transactions := handleDeleteTransaction st.transactions index }

/-- A completed CSV import, followed by the persistence effect. -/
def importEvent (st : AppState) (text : String) : AppState :=
  persistTx { st with transactions := importCSV text }

/-- The dark-mode toggle, followed by its own persistence effect. -/
def toggleEvent (st : AppState) : AppState :=
  persistDark { st with darkMode := !st.darkMode }

/-- The user events of the component, each a synchronous transformation
of the state followed by its persistence write. -/
inductive Step : AppState → AppState → Prop where
  | submit (st : AppState) : Step st (submitEvent st)
  | delete (st : AppState) (index : ℤ) : Step st (deleteEvent st index)
  | importFile (st : AppState) (text : String) : Step st (importEvent st text)
  | toggle (st : AppState) : Step st (toggleEvent st)

/-- The persisted-ledger invariant: the "transactions" storage key holds
exactly the JSON serialisation of the in-memory ledger. -/
def txInvariant (st : AppState) : Prop :=
  st.storage.lookup "transactions" = some (stringifyTransactions st.transactions)


/-- The per-category absolute-value sum over an (already negative-filtered)
transaction list; the specification-side value the chart is compared to. -/
def catSum (l : List Transaction) (c : String) : ℚ :=
  ((l.filter (fun tx => tx.category == c)).map (fun tx => |toQ tx.amount|)).sum

/-- The claim's category breakdown: the sum of the absolute values of the
amounts of the negative transactions in category c. -/
def specCatSum (txs : List Transaction) (c : String) : ℚ :=
  ((txs.filter (fun tx => jlt tx.amount (num 0) && tx.category == c)).map
    (fun tx => |toQ tx.amount|)).sum

/-- The state of the C8 scenario after adding the Coffee expense to an
empty ledger. -/
def c8state1 : AppState := handleAddTransaction ⟨[], "Coffee", "-4.50", "Food", false, []⟩

/-- The state of the C8 scenario after then adding the Paycheck income. -/
def c8state2 : AppState :=
  handleAddTransaction
    { c8state1 with description := "Paycheck", amount := "2000", category := "Salary" }

/-- The characters that may legally follow a serialised field: end of
input, the delimiter, or a record break. -/
def restOk (rest : List Char) : Prop :=
  rest = [] ∨ rest.head? = some ',' ∨ rest.head? = some '\r' ∨ rest.head? = some '\n'

/-! ## Aggregation lemmas -/

/-- The reduce over a list of numeric (non-NaN) amounts is the rational
sum shifted by the accumulator. -/
theorem foldl_jadd_num (l : List Transaction) :
    ∀ a : ℚ, (∀ tx ∈ l, ∃ q, tx.amount = num q) →
      l.foldl (fun acc tx => jadd acc tx.amount) (num a) =
        num (a + (l.map (fun tx => toQ tx.amount)).sum) := by
  induction l with
  | nil => intro a _; simp
  | cons tx l ih =>
      intro a h
      obtain ⟨q, hq⟩ := h tx (List.mem_cons_self tx l)
      have hrest : ∀ tx' ∈ l, ∃ q, tx'.amount = num q :=
        fun tx' h' => h tx' (List.mem_cons_of_mem tx h')
      have hstep : jadd (num a) tx.amount = num (a + q) := by rw [hq]; rfl
      rw [List.foldl_cons, hstep, ih (a + q) hrest, List.map_cons, List.sum_cons, hq]
      exact congrArg num (by simp [toQ]; ring)

/-- Every transaction surviving the income filter has a positive rational
amount. -/
theorem amount_of_income_filter (txs : List Transaction) :
    ∀ tx ∈ txs.filter (fun tx => jgt tx.amount (num 0)), ∃ q, 0 < q ∧ tx.amount = num q := by
  intro tx htx
  have hp := List.of_mem_filter htx
  cases hamt : tx.amount with
  | num q =>
      refine ⟨q, ?_, rfl⟩
      rw [hamt] at hp
      simpa [jgt] using hp
  | nan => rw [hamt] at hp; simp [jgt] at hp

/-- Every transaction surviving the expenses filter has a negative
rational amount. -/
theorem amount_of_expenses_filter (txs : List Transaction) :
    ∀ tx ∈ txs.filter (fun tx => jlt tx.amount (num 0)), ∃ q, q < 0 ∧ tx.amount = num q := by
  intro tx htx
  have hp := List.of_mem_filter htx
  cases hamt : tx.amount with
  | num q =>
      refine ⟨q, ?_, rfl⟩
      rw [hamt] at hp
      simpa [jlt] using hp
  | nan => rw [hamt] at hp; simp [jlt] at hp

/-- The income total is the (nonnegative) rational sum of the positive
amounts. -/
theorem income_eq (txs : List Transaction) :
    ∃ s : ℚ, 0 ≤ s ∧ income txs = num s := by
  refine ⟨((txs.filter (fun tx => jgt tx.amount (num 0))).map (fun tx => toQ tx.amount)).sum,
    ?_, ?_⟩
  · apply List.sum_nonneg
    intro x hx
    obtain ⟨tx, htx, rfl⟩ := List.mem_map.mp hx
    obtain ⟨q, hq, hamt⟩ := amount_of_income_filter txs tx htx
    rw [hamt]; exact le_of_lt hq
  · have := foldl_jadd_num (txs.filter (fun tx => jgt tx.amount (num 0))) 0
      (fun tx h => (amount_of_income_filter txs tx h).imp (fun q hq => hq.2))
    simpa [income] using this

/-- Sums of nonpositive rationals are nonpositive. -/
theorem sum_nonpos_of_mem (l : List ℚ) (h : ∀ x ∈ l, x ≤ 0) : l.sum ≤ 0 := by
  induction l with
  | nil => simp
  | cons x l ih =>
      simp only [List.sum_cons]
      have hx := h x (List.mem_cons_self x l)
      have hl := ih (fun y hy => h y (List.mem_cons_of_mem x hy))
      linarith

/-- The expenses total is the (nonpositive) rational sum of the negative
amounts. -/
theorem expenses_eq (txs : List Transaction) :
    ∃ s : ℚ, s ≤ 0 ∧ expenses txs = num s := by
  refine ⟨((txs.filter (fun tx => jlt tx.amount (num 0))).map (fun tx => toQ tx.amount)).sum,
    ?_, ?_⟩
  · apply sum_nonpos_of_mem
    intro x hx
    obtain ⟨tx, htx, rfl⟩ := List.mem_map.mp hx
    obtain ⟨q, hq, hamt⟩ := amount_of_expenses_filter txs tx htx
    rw [hamt]; exact le_of_lt hq
  · have := foldl_jadd_num (txs.filter (fun tx => jlt tx.amount (num 0))) 0
      (fun tx h => (amount_of_expenses_filter txs tx h).imp (fun q hq => hq.2))
    simpa [expenses] using this

/-- C1: for every ledger the computed balance is income plus expenses,
income is a nonnegative number and expenses a nonpositive number. -/
theorem c1_balance_income_expenses (txs : List Transaction) :
    balance txs = jadd (income txs) (expenses txs) ∧
    (∃ s : ℚ, 0 ≤ s ∧ income txs = num s) ∧
    (∃ s : ℚ, s ≤ 0 ∧ expenses txs = num s) :=
  ⟨rfl, income_eq txs, expenses_eq txs⟩

/-- C7 counterexample: the claim that some ledger with a NaN amount has
NaN totals is false — a NaN amount fails both sign filters, so income,
expenses and balance are never NaN. -/
theorem c7_claim_false :
    ¬ ∃ txs : List Transaction, txs.any (fun tx => isNan tx.amount) = true ∧
      (isNan (income txs) || isNan (expenses txs) || isNan (balance txs)) = true := by
  rintro ⟨txs, -, hnan⟩
  obtain ⟨si, -, hi⟩ := income_eq txs
  obtain ⟨se, -, he⟩ := expenses_eq txs
  rw [balance, hi, he] at hnan
  simp [isNan, jadd] at hnan

/-- C7 amended: NaN amounts are excluded from the totals — income,
expenses and balance ignore transactions whose amount is NaN and are
themselves never NaN. -/
theorem c7_nan_excluded (txs : List Transaction) :
    income txs = income (txs.filter (fun tx => !isNan tx.amount)) ∧
    expenses txs = expenses (txs.filter (fun tx => !isNan tx.amount)) ∧
    balance txs = balance (txs.filter (fun tx => !isNan tx.amount)) ∧
    isNan (income txs) = false ∧ isNan (expenses txs) = false ∧
    isNan (balance txs) = false := by
  have hfi : txs.filter (fun tx => jgt tx.amount (num 0)) =
      (txs.filter (fun tx => !isNan tx.amount)).filter (fun tx => jgt tx.amount (num 0)) := by
    rw [List.filter_filter]
    apply List.filter_congr
    intro tx _
    cases tx.amount <;> simp [jgt, isNan]
  have hfe : txs.filter (fun tx => jlt tx.amount (num 0)) =
      (txs.filter (fun tx => !isNan tx.amount)).filter (fun tx => jlt tx.amount (num 0)) := by
    rw [List.filter_filter]
    apply List.filter_congr
    intro tx _
    cases tx.amount <;> simp [jlt, isNan]
  obtain ⟨si, -, hi⟩ := income_eq txs
  obtain ⟨se, -, he⟩ := expenses_eq txs
  have h1 : income txs = income (txs.filter (fun tx => !isNan tx.amount)) := by
    rw [income, income, hfi]
  have h2 : expenses txs = expenses (txs.filter (fun tx => !isNan tx.amount)) := by
    rw [expenses, expenses, hfe]
  refine ⟨h1, h2, ?_, ?_, ?_, ?_⟩
  · rw [balance, balance, h1, h2]
  · rw [hi]; rfl
  · rw [he]; rfl
  · rw [balance, hi, he]; rfl


/-! ## Deletion lemmas -/

/-- The filter over enumerated positions starting at n, removing position
idx: within range it erases exactly that position, out of range it keeps
everything. -/
theorem enumFrom_filter_ne (ts : List Transaction) :
    ∀ (n : ℕ) (idx : ℤ),
      ((List.enumFrom n ts).filter (fun p => (p.1 : ℤ) ≠ idx)).map (fun p => p.2) =
        if (n : ℤ) ≤ idx ∧ idx < (n : ℤ) + ts.length then ts.eraseIdx (idx - n).toNat else ts := by
  induction ts with
  | nil => intro n idx; simp
  | cons t ts ih =>
      intro n idx
      rw [List.enumFrom_cons, List.filter_cons]
      by_cases hn : (n : ℤ) = idx
      · have hd : (decide ((((n, t).1 : ℕ) : ℤ) ≠ idx)) = false := by simp [hn]
        rw [hd, if_neg (by simp), ih (n + 1) idx,
          if_neg (show ¬ (((n + 1 : ℕ) : ℤ) ≤ idx ∧ idx < ((n + 1 : ℕ) : ℤ) + ts.length) from by
            push_cast; omega),
          if_pos (show ((n : ℤ) ≤ idx ∧ idx < (n : ℤ) + ((t :: ts).length : ℤ)) from by
            simp only [List.length_cons]; push_cast; omega)]
        have h0 : (idx - (n : ℤ)).toNat = 0 := by omega
        rw [h0, List.eraseIdx_zero, List.tail_cons]
      · have hd : (decide ((((n, t).1 : ℕ) : ℤ) ≠ idx)) = true := by simp [hn]
        rw [hd, if_pos rfl, List.map_cons, ih (n + 1) idx]
        by_cases hin : ((n : ℤ) ≤ idx ∧ idx < (n : ℤ) + ((t :: ts).length : ℤ))
        · rw [if_pos (show (((n + 1 : ℕ) : ℤ) ≤ idx ∧ idx < ((n + 1 : ℕ) : ℤ) + ts.length) from by
              simp only [List.length_cons] at hin; push_cast at hin ⊢; omega),
            if_pos hin]
          have hk : (idx - (n : ℤ)).toNat = (idx - ((n + 1 : ℕ) : ℤ)).toNat + 1 := by
            push_cast; omega
          rw [hk, List.eraseIdx_cons_succ]
        · rw [if_neg (show ¬ (((n + 1 : ℕ) : ℤ) ≤ idx ∧ idx < ((n + 1 : ℕ) : ℤ) + ts.length) from by
              simp only [List.length_cons] at hin; push_cast at hin ⊢; omega),
            if_neg hin]

/-- The deletion handler in closed form over the integer index. -/
theorem handleDeleteTransaction_eq (txs : List Transaction) (idx : ℤ) :
    handleDeleteTransaction txs idx =
      if 0 ≤ idx ∧ idx < txs.length then txs.eraseIdx idx.toNat else txs := by
  have h := enumFrom_filter_ne txs 0 idx
  simp only [Nat.cast_zero, zero_add, Int.sub_zero] at h
  rw [handleDeleteTransaction, List.enum]
  exact h

/-- C3: deleting an in-range index i removes exactly the record at
position i (the result is the prefix before i followed by the suffix
after i) and the length drops by one. -/
theorem c3_delete_in_range (txs : List Transaction) (i : ℤ)
    (h0 : 0 ≤ i) (hlen : i < txs.length) :
    handleDeleteTransaction txs i = txs.take i.toNat ++ txs.drop (i.toNat + 1) ∧
    (handleDeleteTransaction txs i).length = txs.length - 1 := by
  have heq : handleDeleteTransaction txs i = txs.eraseIdx i.toNat := by
    rw [handleDeleteTransaction_eq, if_pos ⟨h0, hlen⟩]
  constructor
  · rw [heq, List.eraseIdx_eq_take_drop_succ]
  · rw [heq, List.length_eraseIdx, if_pos (by omega)]

/-- C3 witness: deleting index 1 from a three-element ledger. -/
theorem c3_delete_in_range_witness :
    handleDeleteTransaction
        [⟨"a", num 1, "Food"⟩, ⟨"b", num 2, "Rent"⟩, ⟨"c", num 3, "Other"⟩] 1 =
      [⟨"a", num 1, "Food"⟩, ⟨"c", num 3, "Other"⟩] ∧
    (handleDeleteTransaction
        [⟨"a", num 1, "Food"⟩, ⟨"b", num 2, "Rent"⟩, ⟨"c", num 3, "Other"⟩] 1).length = 2 := by
  have h := c3_delete_in_range
    [⟨"a", num 1, "Food"⟩, ⟨"b", num 2, "Rent"⟩, ⟨"c", num 3, "Other"⟩] 1
    (by decide) (by with_unfolding_all decide)
  refine ⟨?_, ?_⟩
  · rw [h.1]; with_unfolding_all decide
  · rw [h.2]; rfl

/-- C10: deleting an out-of-range index (negative or at least the length)
leaves the ledger unchanged and raises no error. -/
theorem c10_delete_out_of_range (txs : List Transaction) (i : ℤ)
    (h : i < 0 ∨ (txs.length : ℤ) ≤ i) :
    handleDeleteTransaction txs i = txs := by
  rw [handleDeleteTransaction_eq, if_neg (by omega)]

/-- C10 witness: deleting index -1 from a two-element ledger leaves it
unchanged. -/
theorem c10_delete_out_of_range_witness :
    handleDeleteTransaction [⟨"a", num 1, "Food"⟩, ⟨"b", num 2, "Rent"⟩] (-1) =
      [⟨"a", num 1, "Food"⟩, ⟨"b", num 2, "Rent"⟩] :=
  c10_delete_out_of_range [⟨"a", num 1, "Food"⟩, ⟨"b", num 2, "Rent"⟩] (-1)
    (Or.inl (by decide))

/-! ## Add and import -/

/-- C5: the add handler is a no-op when description or amount is empty;
otherwise it appends exactly the parsed record at the end, keeps all prior
records, and resets the form fields. -/
theorem c5_add_transaction (st : AppState) :
    ((st.description = "" ∨ st.amount = "") → handleAddTransaction st = st) ∧
    (st.description ≠ "" → st.amount ≠ "" →
      (handleAddTransaction st).transactions =
        st.transactions ++ [⟨st.description, parseFloatJS st.amount, st.category⟩] ∧
      (handleAddTransaction st).description = "" ∧
      (handleAddTransaction st).amount = "" ∧
      (handleAddTransaction st).category = "Other") := by
  constructor
  · intro h; rw [handleAddTransaction, if_pos h]
  · intro h1 h2
    rw [handleAddTransaction, if_neg (by tauto)]
    exact ⟨rfl, rfl, rfl, rfl⟩

/-- C5 witness: an empty description blocks the add, and a filled form
appends the parsed record. -/
theorem c5_add_transaction_witness :
    handleAddTransaction ⟨[], "", "5", "Food", false, []⟩ = ⟨[], "", "5", "Food", false, []⟩ ∧
    (handleAddTransaction ⟨[], "Coffee", "-4.50", "Food", false, []⟩).transactions =
      [⟨"Coffee", parseFloatJS "-4.50", "Food"⟩] := by
  constructor
  · exact (c5_add_transaction ⟨[], "", "5", "Food", false, []⟩).1 (Or.inl rfl)
  · have h := (c5_add_transaction ⟨[], "Coffee", "-4.50", "Food", false, []⟩).2
      (by decide) (by decide)
    rw [h.1]; rfl

/-- C6: importing replaces the whole ledger — the result equals the
parsed set regardless of the prior state, and each parsed row maps to a
record with the row's description, parseFloat of the row's amount, and the
row's category defaulting to "Other" when blank. -/
theorem c6_import_replaces (st st' : AppState) (text : String) :
    (importEvent st text).transactions = importCSV text ∧
    (importEvent st text).transactions = (importEvent st' text).transactions ∧
    (∀ hdr rows, papaParse text.data = hdr :: rows →
      importCSV text = rows.map (fun row =>
        { description := (rowLookup hdr row "description").getD ""
          amount := parseFloatJS ((rowLookup hdr row "amount").getD "")
          category :=
            if (rowLookup hdr row "category").getD "" = "" then "Other"
            else (rowLookup hdr row "category").getD "" })) := by
  refine ⟨rfl, rfl, ?_⟩
  intro hdr rows h
  simp only [importCSV, h]

/-- C6 witness: importing a CSV whose first row lacks a category yields
the default category "Other", and the prior ledger does not survive. -/
theorem c6_import_replaces_witness :
    importCSV "description,amount,category\r\nCoffee,-4.50,\r\nTea,2,Drink" =
      [⟨"Coffee", num (-4.5 : ℚ), "Other"⟩, ⟨"Tea", num 2, "Drink"⟩] := by
  have h := (c6_import_replaces ⟨[], "", "", "Other", false, []⟩ ⟨[], "", "", "Other", false, []⟩
      "description,amount,category\r\nCoffee,-4.50,\r\nTea,2,Drink").2.2
    ["description", "amount", "category"] [["Coffee", "-4.50", ""], ["Tea", "2", "Drink"]]
    (by decide)
  have hm : [["Coffee", "-4.50", ""], ["Tea", "2", "Drink"]].map (fun row =>
      ({ description := (rowLookup ["description", "amount", "category"] row "description").getD ""
         amount := parseFloatJS ((rowLookup ["description", "amount", "category"] row "amount").getD "")
         category :=
           if (rowLookup ["description", "amount", "category"] row "category").getD "" = ""
           then "Other"
           else (rowLookup ["description", "amount", "category"] row "category").getD "" } :
        Transaction)) =
      [⟨"Coffee", parseFloatJS "-4.50", "Other"⟩, ⟨"Tea", parseFloatJS "2", "Drink"⟩] := rfl
  have e1 : parseFloatJS "-4.50" = num (-4.5 : ℚ) := by with_unfolding_all decide
  have e2 : parseFloatJS "2" = num 2 := by decide
  rw [h, hm, e1, e2]

/-- C8: adding Coffee -4.50 Food and then Paycheck 2000 Salary to the
empty ledger yields income 2000, expenses -4.50, balance 1995.50, and
chart data with the single entry Food 4.50. -/
theorem c8_scenario :
    income c8state2.transactions = num 2000 ∧
    expenses c8state2.transactions = num (-4.5 : ℚ) ∧
    balance c8state2.transactions = num (1995.5 : ℚ) ∧
    chartData c8state2.transactions = [⟨"Food", num (4.5 : ℚ)⟩] := by
  have htx : c8state2.transactions =
      [⟨"Coffee", parseFloatJS "-4.50", "Food"⟩, ⟨"Paycheck", parseFloatJS "2000", "Salary"⟩] :=
    rfl
  have e1 : parseFloatJS "-4.50" = num (-4.5 : ℚ) := by with_unfolding_all decide
  have e2 : parseFloatJS "2000" = num 2000 := by decide
  have hgt1 : jgt (num (-4.5 : ℚ)) (num 0) = false := by
    simp only [jgt, decide_eq_false_iff_not]
    norm_num
  have hgt2 : jgt (num (2000 : ℚ)) (num 0) = true := by
    simp only [jgt, decide_eq_true_eq]
    norm_num
  have hlt1 : jlt (num (-4.5 : ℚ)) (num 0) = true := by
    simp only [jlt, decide_eq_true_eq]
    norm_num
  have hlt2 : jlt (num (2000 : ℚ)) (num 0) = false := by
    simp only [jlt, decide_eq_false_iff_not]
    norm_num
  rw [htx, e1, e2]
  refine ⟨?_, ?_, ?_, ?_⟩
  · rw [income]
    simp only [List.filter_cons, List.filter_nil, hgt1, hgt2]
    show num (0 + 2000) = num 2000
    norm_num
  · rw [expenses]
    simp only [List.filter_cons, List.filter_nil, hlt1, hlt2]
    show num (0 + (-4.5 : ℚ)) = num (-4.5 : ℚ)
    norm_num
  · rw [balance, income, expenses]
    simp only [List.filter_cons, List.filter_nil, hgt1, hgt2, hlt1, hlt2]
    show num ((0 + 2000) + (0 + (-4.5 : ℚ))) = num (1995.5 : ℚ)
    norm_num
  · rw [chartData, expenseByCategory]
    simp only [List.filter_cons, List.filter_nil, hlt1, hlt2]
    show [(⟨"Food", num |(-4.5 : ℚ)|⟩ : ChartEntry)] = [⟨"Food", num (4.5 : ℚ)⟩]
    norm_num

/-! ## Persistence invariant -/

/-- setItem stores the written value under the written key. -/
theorem lookup_setItem_self (o : List (String × String)) (k v : String) :
    (setItem o k v).lookup k = some v := by
  induction o with
  | nil => simp [setItem, List.lookup]
  | cons p t ih =>
      obtain ⟨k', v'⟩ := p
      by_cases hk : k' = k
      · subst hk
        simp [setItem, List.lookup]
      · have hbeq : (k == k') = false := beq_eq_false_iff_ne.mpr (Ne.symm hk)
        simp [setItem, hk, List.lookup, hbeq, ih]

/-- setItem leaves every other key unchanged. -/
theorem lookup_setItem_other (o : List (String × String)) (k k' v : String) (h : k ≠ k') :
    (setItem o k' v).lookup k = o.lookup k := by
  have hbeq : (k == k') = false := beq_eq_false_iff_ne.mpr h
  induction o with
  | nil => simp [setItem, List.lookup, hbeq]
  | cons p t ih =>
      obtain ⟨k1, v1⟩ := p
      by_cases hk : k1 = k'
      · subst hk
        simp [setItem, List.lookup, hbeq]
      · simp [setItem, hk, List.lookup, ih]

/-- The transactions save effect establishes the persisted-ledger
invariant unconditionally: it overwrites the key with the serialisation of
the full current ledger. -/
theorem txInvariant_persistTx (st : AppState) : txInvariant (persistTx st) := by
  rw [txInvariant, persistTx]
  exact lookup_setItem_self st.storage "transactions" (stringifyTransactions st.transactions)

/-- A form submit preserves the invariant (re-established by the save
effect when the ledger changes, untouched otherwise). -/
theorem txInvariant_submitEvent (st : AppState) (h : txInvariant st) :
    txInvariant (submitEvent st) := by
  rw [submitEvent]
  by_cases hg : st.description = "" ∨ st.amount = ""
  · rw [if_pos hg]; exact h
  · rw [if_neg hg]; exact txInvariant_persistTx _

/-- The dark-mode toggle writes a different storage key and so preserves
the persisted-ledger invariant. -/
theorem txInvariant_toggleEvent (st : AppState) (h : txInvariant st) :
    txInvariant (toggleEvent st) := by
  rw [toggleEvent, txInvariant, persistDark]
  rw [lookup_setItem_other _ _ _ _ (by decide)]
  exact h

/-- C9: in every state reachable by user events from a state satisfying
the persisted-ledger invariant, the "transactions" storage key holds
exactly the JSON serialisation of the full in-memory ledger — each
mutation is followed by a wholesale overwrite. -/
theorem c9_storage_invariant (st0 st : AppState) (h0 : txInvariant st0)
    (h : Relation.ReflTransGen Step st0 st) : txInvariant st := by
  induction h with
  | refl => exact h0
  | tail hsteps hstep ih =>
      cases hstep with
      | submit => exact txInvariant_submitEvent _ ih
      | delete idx => exact txInvariant_persistTx _
      | importFile text => exact txInvariant_persistTx _
      | toggle => exact txInvariant_toggleEvent _ ih

/-- C9 witness: one delete step from a freshly persisted empty state. -/
theorem c9_storage_invariant_witness :
    txInvariant (deleteEvent ⟨[], "", "", "Other", false, [("transactions", "[]")]⟩ 0) :=
  c9_storage_invariant ⟨[], "", "", "Other", false, [("transactions", "[]")]⟩ _
    (by unfold txInvariant; decide)
    (Relation.ReflTransGen.single
      (Step.delete ⟨[], "", "", "Other", false, [("transactions", "[]")]⟩ 0))

/-! ## Chart aggregation -/

/-- A lookup hit names a pair of the association list. -/
theorem lookup_mem {o : List (String × JSNum)} {k : String} {v : JSNum}
    (h : o.lookup k = some v) : (k, v) ∈ o := by
  induction o with
  | nil => simp [List.lookup] at h
  | cons p t ih =>
      obtain ⟨k1, v1⟩ := p
      by_cases hk : k = k1
      · subst hk
        simp [List.lookup] at h
        subst h
        exact List.mem_cons_self _ _
      · have hbeq : (k == k1) = false := beq_eq_false_iff_ne.mpr hk
        rw [List.lookup_cons, hbeq] at h
        exact List.mem_cons_of_mem _ (ih h)

/-- The object-assignment step stores under the written key. -/
theorem lookup_setVal_self (o : List (String × JSNum)) (k : String) (v : JSNum) :
    (stepCat.setVal o k v).lookup k = some v := by
  induction o with
  | nil => simp [stepCat.setVal, List.lookup]
  | cons p t ih =>
      obtain ⟨k', v'⟩ := p
      by_cases hk : k' = k
      · subst hk
        simp [stepCat.setVal, List.lookup]
      · have hbeq : (k == k') = false := beq_eq_false_iff_ne.mpr (Ne.symm hk)
        simp [stepCat.setVal, hk, List.lookup, hbeq, ih]

/-- The object-assignment step leaves other keys unchanged. -/
theorem lookup_setVal_other (o : List (String × JSNum)) (k k' : String) (v : JSNum)
    (h : k ≠ k') : (stepCat.setVal o k' v).lookup k = o.lookup k := by
  have hbeq : (k == k') = false := beq_eq_false_iff_ne.mpr h
  induction o with
  | nil => simp [stepCat.setVal, List.lookup, hbeq]
  | cons p t ih =>
      obtain ⟨k1, v1⟩ := p
      by_cases hk : k1 = k'
      · subst hk
        simp [stepCat.setVal, List.lookup, hbeq]
      · simp [stepCat.setVal, hk, List.lookup, ih]

/-- Every pair of the updated object is the written pair or an original
one. -/
theorem mem_setVal (o : List (String × JSNum)) (k : String) (v : JSNum) :
    ∀ p ∈ stepCat.setVal o k v, p = (k, v) ∨ p ∈ o := by
  induction o with
  | nil => intro p hp; simp [stepCat.setVal] at hp; left; exact hp
  | cons q t ih =>
      obtain ⟨k1, v1⟩ := q
      intro p hp
      by_cases hk : k1 = k
      · subst hk
        simp only [stepCat.setVal, if_true, eq_self_iff_true, List.mem_cons] at hp
        rcases hp with h | h
        · exact Or.inl h
        · exact Or.inr (List.mem_cons_of_mem _ h)
      · simp only [stepCat.setVal, if_neg hk, List.mem_cons] at hp
        rcases hp with h | h
        · exact Or.inr (List.mem_cons.mpr (Or.inl h))
        · rcases ih p h with h1 | h1
          · exact Or.inl h1
          · exact Or.inr (List.mem_cons_of_mem _ h1)

/-- One reduce step over a negative transaction writes its category, and
the written value is again a positive number. -/
theorem stepCat_shape (acc : List (String × JSNum)) (tx : Transaction) (q : ℚ)
    (hq : q < 0) (hamt : tx.amount = num q)
    (hacc : ∀ p ∈ acc, ∃ b, 0 < b ∧ p.2 = num b) :
    ∃ w, stepCat acc tx = stepCat.setVal acc tx.category w ∧ ∃ b, 0 < b ∧ w = num b := by
  cases hlk : acc.lookup tx.category with
  | none =>
      refine ⟨jabs tx.amount, by simp only [stepCat, hlk], |q|, abs_pos.mpr hq.ne, ?_⟩
      rw [hamt]; rfl
  | some v =>
      obtain ⟨b, hb, hv⟩ := hacc (tx.category, v) (lookup_mem hlk)
      by_cases ht : truthy v = true
      · refine ⟨jadd v (jabs tx.amount), ?_, b + |q|, ?_, ?_⟩
        · simp only [stepCat, hlk, ht, if_true]
        · exact add_pos_of_pos_of_nonneg hb (abs_nonneg q)
        · rw [show v = num b from hv, hamt]; rfl
      · refine ⟨jabs tx.amount, ?_, |q|, abs_pos.mpr hq.ne, ?_⟩
        · simp only [stepCat, hlk, if_neg ht]
        · rw [hamt]; rfl

/-- Folding the category reduce from an accumulator that already holds a
positive value for c adds the per-category sum to it. -/
theorem fold_cat_some (l : List Transaction) :
    ∀ (acc : List (String × JSNum)) (c : String) (a : ℚ),
      (∀ tx ∈ l, ∃ q, q < 0 ∧ tx.amount = num q) →
      (∀ p ∈ acc, ∃ b, 0 < b ∧ p.2 = num b) →
      acc.lookup c = some (num a) → 0 < a →
      (l.foldl stepCat acc).lookup c = some (num (a + catSum l c)) := by
  induction l with
  | nil =>
      intro acc c a _ _ hac _
      simpa [catSum] using hac
  | cons tx l ih =>
      intro acc c a hl hacc hac ha
      obtain ⟨q, hq, hamt⟩ := hl tx (List.mem_cons_self tx l)
      have hl' : ∀ tx' ∈ l, ∃ q, q < 0 ∧ tx'.amount = num q :=
        fun tx' h => hl tx' (List.mem_cons_of_mem _ h)
      rw [List.foldl_cons]
      by_cases hc : tx.category = c
      · subst hc
        have ht : truthy (num a) = true := by simp [truthy, ha.ne']
        have hstep : stepCat acc tx = stepCat.setVal acc tx.category (num (a + |q|)) := by
          simp only [stepCat, hac, ht, if_true]
          rw [hamt]; rfl
        rw [hstep]
        have hacc' : ∀ p ∈ stepCat.setVal acc tx.category (num (a + |q|)),
            ∃ b, 0 < b ∧ p.2 = num b := by
          intro p hp
          rcases mem_setVal _ _ _ p hp with h | h
          · exact ⟨a + |q|, add_pos_of_pos_of_nonneg ha (abs_nonneg q), by rw [h]⟩
          · exact hacc p h
        rw [ih _ _ _ hl' hacc' (lookup_setVal_self _ _ _)
          (add_pos_of_pos_of_nonneg ha (abs_nonneg q))]
        have hsum : catSum (tx :: l) tx.category = |toQ tx.amount| + catSum l tx.category := by
          simp [catSum, List.filter_cons]
        rw [hsum, hamt]
        exact congrArg (fun x => some (num x))
          (by show a + |q| + _ = a + (|toQ (num q)| + _); simp [toQ]; ring)
      · obtain ⟨w, hstep, b, hb, hw⟩ := stepCat_shape acc tx q hq hamt hacc
        rw [hstep]
        have hacc' : ∀ p ∈ stepCat.setVal acc tx.category w, ∃ b, 0 < b ∧ p.2 = num b := by
          intro p hp
          rcases mem_setVal _ _ _ p hp with h | h
          · exact ⟨b, hb, by rw [h]; exact hw⟩
          · exact hacc p h
        have hlk' : (stepCat.setVal acc tx.category w).lookup c = some (num a) := by
          rw [lookup_setVal_other _ _ _ _ (fun h => hc h.symm)]
          exact hac
        rw [ih _ _ _ hl' hacc' hlk' ha]
        have hsum : catSum (tx :: l) c = catSum l c := by
          simp [catSum, List.filter_cons, hc]
        rw [hsum]

/-- Folding the category reduce from an accumulator without key c yields
the per-category sum exactly when some transaction carries category c, and
no entry otherwise. -/
theorem fold_cat_none (l : List Transaction) :
    ∀ (acc : List (String × JSNum)) (c : String),
      (∀ tx ∈ l, ∃ q, q < 0 ∧ tx.amount = num q) →
      (∀ p ∈ acc, ∃ b, 0 < b ∧ p.2 = num b) →
      acc.lookup c = none →
      (l.foldl stepCat acc).lookup c =
        if l.any (fun tx => tx.category == c) then some (num (catSum l c)) else none := by
  induction l with
  | nil =>
      intro acc c _ _ hac
      simpa using hac
  | cons tx l ih =>
      intro acc c hl hacc hac
      obtain ⟨q, hq, hamt⟩ := hl tx (List.mem_cons_self tx l)
      have hl' : ∀ tx' ∈ l, ∃ q, q < 0 ∧ tx'.amount = num q :=
        fun tx' h => hl tx' (List.mem_cons_of_mem _ h)
      rw [List.foldl_cons]
      by_cases hc : tx.category = c
      · subst hc
        have hstep : stepCat acc tx = stepCat.setVal acc tx.category (num |q|) := by
          simp only [stepCat, hac]
          rw [hamt]; rfl
        rw [hstep]
        have hacc' : ∀ p ∈ stepCat.setVal acc tx.category (num |q|),
            ∃ b, 0 < b ∧ p.2 = num b := by
          intro p hp
          rcases mem_setVal _ _ _ p hp with h | h
          · exact ⟨|q|, abs_pos.mpr hq.ne, by rw [h]⟩
          · exact hacc p h
        rw [fold_cat_some l _ _ _ hl' hacc' (lookup_setVal_self _ _ _) (abs_pos.mpr hq.ne)]
        rw [if_pos (by simp)]
        have hsum : catSum (tx :: l) tx.category = |toQ tx.amount| + catSum l tx.category := by
          simp [catSum, List.filter_cons]
        rw [hsum, hamt]
        exact congrArg (fun x => some (num x)) (by simp [toQ])
      · obtain ⟨w, hstep, b, hb, hw⟩ := stepCat_shape acc tx q hq hamt hacc
        rw [hstep]
        have hacc' : ∀ p ∈ stepCat.setVal acc tx.category w, ∃ b, 0 < b ∧ p.2 = num b := by
          intro p hp
          rcases mem_setVal _ _ _ p hp with h | h
          · exact ⟨b, hb, by rw [h]; exact hw⟩
          · exact hacc p h
        have hlk' : (stepCat.setVal acc tx.category w).lookup c = none := by
          rw [lookup_setVal_other _ _ _ _ (fun h => hc h.symm)]
          exact hac
        rw [ih _ _ hl' hacc' hlk']
        have hany : (tx :: l).any (fun tx => tx.category == c) =
            l.any (fun tx => tx.category == c) := by
          simp [List.any_cons, hc]
        have hsum : catSum (tx :: l) c = catSum l c := by
          simp [catSum, List.filter_cons, hc]
        rw [hany, hsum]

/-- The chart value for a category is the object lookup underneath. -/
theorem chartValue_eq_lookup (txs : List Transaction) (c : String) :
    chartValue txs c = (expenseByCategory txs).lookup c := by
  rw [chartValue, chartData]
  generalize expenseByCategory txs = o
  induction o with
  | nil => simp [List.lookup]
  | cons p t ih =>
      obtain ⟨k, v⟩ := p
      by_cases hk : k = c
      · subst hk
        simp [List.find?_cons, List.lookup]
      · have h1 : ((ChartEntry.mk k v).name == c) = false := by
          simp [ChartEntry.mk, hk]
        have h2 : (c == k) = false := beq_eq_false_iff_ne.mpr (Ne.symm hk)
        simp only [List.map_cons, List.find?_cons, h1, List.lookup_cons, h2, ih]

/-- C4: the chart value for every category c is the sum of the absolute
values of the negative amounts in category c, and categories without a
negative transaction have no chart entry. -/
theorem c4_chart_category_sums (txs : List Transaction) (c : String) :
    chartValue txs c =
      if txs.any (fun tx => jlt tx.amount (num 0) && tx.category == c)
      then some (num (specCatSum txs c)) else none := by
  rw [chartValue_eq_lookup, expenseByCategory]
  rw [fold_cat_none _ [] c (amount_of_expenses_filter txs) (by simp) rfl]
  rw [List.any_filter]
  by_cases h : txs.any (fun tx => jlt tx.amount (num 0) && tx.category == c) = true
  · rw [if_pos h, if_pos h]
    have heq : catSum (txs.filter (fun tx => jlt tx.amount (num 0))) c = specCatSum txs c := by
      rw [catSum, specCatSum, List.filter_filter]
      rw [List.filter_congr
        (fun tx _ => Bool.and_comm (tx.category == c) (jlt tx.amount (num 0)))]
    rw [heq]
  · rw [if_neg h, if_neg h]

/-! ## CSV round trip -/

/-- Rebuilding a string from its characters is the identity. -/
theorem string_mk_data (s : String) : String.mk s.data = s := by
  cases s
  rfl

/-- Scanner step: a quote inside a quoted section. -/
theorem scan_q_quote (fld : List Char) (row : List String) (rest : List Char) :
    scanRecords ScanMode.quoted fld row ('"' :: rest) =
      scanRecords ScanMode.quoteEnd fld row rest := rfl

/-- Scanner step: an ordinary character inside a quoted section. -/
theorem scan_q_char (c : Char) (hc : c ≠ '"') (fld : List Char) (row : List String)
    (rest : List Char) :
    scanRecords ScanMode.quoted fld row (c :: rest) =
      scanRecords ScanMode.quoted (c :: fld) row rest := by
  simp only [scanRecords]
  rw [if_neg hc]

/-- Scanner step: the second quote of an escaped pair. -/
theorem scan_e_quote (fld : List Char) (row : List String) (rest : List Char) :
    scanRecords ScanMode.quoteEnd fld row ('"' :: rest) =
      scanRecords ScanMode.quoted ('"' :: fld) row rest := rfl

/-- Scanner step: a delimiter right after a closing quote. -/
theorem scan_e_comma (fld : List Char) (row : List String) (rest : List Char) :
    scanRecords ScanMode.quoteEnd fld row (',' :: rest) =
      scanRecords ScanMode.normal [] (row ++ [endField fld]) rest := rfl

/-- Scanner step: a CR right after a closing quote. -/
theorem scan_e_cr (fld : List Char) (row : List String) (rest : List Char) :
    scanRecords ScanMode.quoteEnd fld row ('\r' :: rest) =
      (row ++ [endField fld]) :: scanRecords ScanMode.afterCR [] [] rest := rfl

/-- Scanner step: an LF right after a closing quote. -/
theorem scan_e_lf (fld : List Char) (row : List String) (rest : List Char) :
    scanRecords ScanMode.quoteEnd fld row ('\n' :: rest) =
      (row ++ [endField fld]) :: scanRecords ScanMode.normal [] [] rest := rfl

/-- Scanner step: an opening quote at field start. -/
theorem scan_n_quote (row : List String) (rest : List Char) :
    scanRecords ScanMode.normal [] row ('"' :: rest) =
      scanRecords ScanMode.quoted [] row rest := rfl

/-- Scanner step: the field delimiter. -/
theorem scan_n_comma (fld : List Char) (row : List String) (rest : List Char) :
    scanRecords ScanMode.normal fld row (',' :: rest) =
      scanRecords ScanMode.normal [] (row ++ [endField fld]) rest := rfl

/-- Scanner step: a CR record break. -/
theorem scan_n_cr (fld : List Char) (row : List String) (rest : List Char) :
    scanRecords ScanMode.normal fld row ('\r' :: rest) =
      (row ++ [endField fld]) :: scanRecords ScanMode.afterCR [] [] rest := rfl

/-- Scanner step: an LF record break. -/
theorem scan_n_lf (fld : List Char) (row : List String) (rest : List Char) :
    scanRecords ScanMode.normal fld row ('\n' :: rest) =
      (row ++ [endField fld]) :: scanRecords ScanMode.normal [] [] rest := rfl

/-- Scanner step: an ordinary character outside quotes. -/
theorem scan_n_char (c : Char) (h1 : c ≠ '"') (h2 : c ≠ ',') (h3 : c ≠ '\r') (h4 : c ≠ '\n')
    (fld : List Char) (row : List String) (rest : List Char) :
    scanRecords ScanMode.normal fld row (c :: rest) =
      scanRecords ScanMode.normal (c :: fld) row rest := by
  simp only [scanRecords]
  rw [if_neg (fun hcon => h1 hcon.1), if_neg h2, if_neg h3, if_neg h4]

/-- Scanner step: the LF of a CRLF pair is swallowed. -/
theorem scan_a_lf (fld : List Char) (row : List String) (rest : List Char) :
    scanRecords ScanMode.afterCR fld row ('\n' :: rest) =
      scanRecords ScanMode.normal fld row rest := rfl

/-- Scanner step: end of input closes the last field and record. -/
theorem scan_end (m : ScanMode) (fld : List Char) (row : List String) :
    scanRecords m fld row [] = [row ++ [endField fld]] := rfl

/-- Consuming a quote-escaped field body up to its closing quote recovers
the original characters. -/
theorem scan_quoted_field (f : List Char) :
    ∀ (fld : List Char) (row : List String) (rest : List Char),
      scanRecords ScanMode.quoted fld row (escQuoteC f ++ '"' :: rest) =
        scanRecords ScanMode.quoteEnd (f.reverse ++ fld) row rest := by
  induction f with
  | nil =>
      intro fld row rest
      show scanRecords ScanMode.quoted fld row ('"' :: rest) = _
      rw [scan_q_quote]
      simp
  | cons c f ih =>
      intro fld row rest
      by_cases hc : c = '"'
      · subst hc
        have hesc : escQuoteC ('"' :: f) ++ '"' :: rest =
            '"' :: '"' :: (escQuoteC f ++ '"' :: rest) := by
          rw [escQuoteC, if_pos rfl]
          simp
        rw [hesc, scan_q_quote, scan_e_quote, ih ('"' :: fld) row rest]
        simp
      · have hesc : escQuoteC (c :: f) ++ '"' :: rest =
            c :: (escQuoteC f ++ '"' :: rest) := by
          rw [escQuoteC, if_neg hc]
          simp
        rw [hesc, scan_q_char c hc, ih (c :: fld) row rest]
        simp

/-- Consuming an unescaped field (no special characters) recovers its
characters. -/
theorem scan_unquoted_field (f : List Char) :
    ∀ (fld : List Char) (row : List String) (rest : List Char),
      (∀ c ∈ f, c ≠ '"' ∧ c ≠ ',' ∧ c ≠ '\r' ∧ c ≠ '\n') →
      scanRecords ScanMode.normal fld row (f ++ rest) =
        scanRecords ScanMode.normal (f.reverse ++ fld) row rest := by
  induction f with
  | nil => intro fld row rest _; simp
  | cons c f ih =>
      intro fld row rest hf
      obtain ⟨h1, h2, h3, h4⟩ := hf c (List.mem_cons_self c f)
      have hf' : ∀ c' ∈ f, c' ≠ '"' ∧ c' ≠ ',' ∧ c' ≠ '\r' ∧ c' ≠ '\n' :=
        fun c' h => hf c' (List.mem_cons_of_mem _ h)
      show scanRecords ScanMode.normal fld row (c :: (f ++ rest)) = _
      rw [scan_n_char c h1 h2 h3 h4, ih (c :: fld) row rest hf']
      simp

/-- At a field boundary the after-quote state behaves like the normal
state. -/
theorem scan_quoteEnd_boundary (fld : List Char) (row : List String) (rest : List Char)
    (h : restOk rest) :
    scanRecords ScanMode.quoteEnd fld row rest = scanRecords ScanMode.normal fld row rest := by
  rcases h with h | h | h | h
  · subst h; rfl
  · obtain ⟨c, t, rfl⟩ : ∃ c t, rest = c :: t := by
      cases rest with
      | nil => simp at h
      | cons c t => exact ⟨c, t, rfl⟩
    simp only [List.head?] at h
    injection h with h
    subst h
    rw [scan_e_comma, scan_n_comma]
  · obtain ⟨c, t, rfl⟩ : ∃ c t, rest = c :: t := by
      cases rest with
      | nil => simp at h
      | cons c t => exact ⟨c, t, rfl⟩
    simp only [List.head?] at h
    injection h with h
    subst h
    rw [scan_e_cr, scan_n_cr]
  · obtain ⟨c, t, rfl⟩ : ∃ c t, rest = c :: t := by
      cases rest with
      | nil => simp at h
      | cons c t => exact ⟨c, t, rfl⟩
    simp only [List.head?] at h
    injection h with h
    subst h
    rw [scan_e_lf, scan_n_lf]

/-- A field that needs no quoting holds none of the scanner's special
characters. -/
theorem noSpecial_of_not_needsQuotes (f : List Char) (h : needsQuotesC f = false) :
    ∀ c ∈ f, c ≠ '"' ∧ c ≠ ',' ∧ c ≠ '\r' ∧ c ≠ '\n' := by
  intro c hc
  rw [needsQuotesC] at h
  simp only [Bool.or_eq_false_iff, List.any_eq_false] at h
  have hthis := h.1.1 c hc
  simp only [Bool.or_eq_true, decide_eq_true_eq, not_or] at hthis
  exact ⟨hthis.1.1.1.1, hthis.1.1.1.2, hthis.1.1.2, hthis.1.2⟩

/-- Parsing an escaped field consumes exactly the original field. -/
theorem scan_field (f : List Char) (row : List String) (rest : List Char) (h : restOk rest) :
    scanRecords ScanMode.normal [] row (escapeFieldC f ++ rest) =
      scanRecords ScanMode.normal f.reverse row rest := by
  by_cases hq : needsQuotesC f
  · have hesc : escapeFieldC f ++ rest = '"' :: (escQuoteC f ++ '"' :: rest) := by
      rw [escapeFieldC, if_pos hq]
      simp
    rw [hesc, scan_n_quote, scan_quoted_field f [] row rest,
      scan_quoteEnd_boundary _ _ _ h]
    simp
  · have hesc : escapeFieldC f = f := by rw [escapeFieldC, if_neg hq]
    rw [hesc, scan_unquoted_field f [] row rest
      (noSpecial_of_not_needsQuotes f (by simpa using hq))]
    simp

/-- A one-field record serialises to just the escaped field. -/
theorem rowCharsC_singleton (f : String) : rowCharsC [f] = escapeFieldC f.data := by
  simp [rowCharsC, List.intercalate]

/-- Record serialisation peels off one field and a delimiter. -/
theorem rowCharsC_cons (f : String) (fs : List String) (h : fs ≠ []) :
    rowCharsC (f :: fs) = escapeFieldC f.data ++ ',' :: rowCharsC fs := by
  cases fs with
  | nil => exact absurd rfl h
  | cons g gs =>
      simp [rowCharsC, List.intercalate, List.intersperse_cons_cons]

/-- Parsing the last serialised record of the input recovers its fields. -/
theorem scan_row_last (fields : List String) :
    ∀ row : List String, fields ≠ [] →
      scanRecords ScanMode.normal [] row (rowCharsC fields) = [row ++ fields] := by
  induction fields with
  | nil => intro row h; exact absurd rfl h
  | cons f fs ih =>
      intro row _
      by_cases hfs : fs = []
      · subst hfs
        rw [rowCharsC_singleton]
        have hstep := scan_field f.data row [] (Or.inl rfl)
        rw [List.append_nil] at hstep
        rw [hstep, scan_end]
        simp [endField, string_mk_data]
      · rw [rowCharsC_cons f fs hfs,
          scan_field f.data row (',' :: rowCharsC fs) (Or.inr (Or.inl rfl)),
          scan_n_comma, ih (row ++ [endField f.data.reverse]) hfs]
        simp [endField, string_mk_data]

/-- Parsing a serialised record followed by CRLF recovers its fields and
continues with the rest. -/
theorem scan_row_mid (fields : List String) :
    ∀ (row : List String) (t : List Char), fields ≠ [] →
      scanRecords ScanMode.normal [] row (rowCharsC fields ++ '\r' :: '\n' :: t) =
        (row ++ fields) :: scanRecords ScanMode.normal [] [] t := by
  induction fields with
  | nil => intro row t h; exact absurd rfl h
  | cons f fs ih =>
      intro row t _
      by_cases hfs : fs = []
      · subst hfs
        rw [rowCharsC_singleton,
          scan_field f.data row ('\r' :: '\n' :: t) (Or.inr (Or.inr (Or.inl rfl))),
          scan_n_cr, scan_a_lf]
        simp [endField, string_mk_data]
      · rw [rowCharsC_cons f fs hfs]
        have hassoc : (escapeFieldC f.data ++ ',' :: rowCharsC fs) ++ '\r' :: '\n' :: t =
            escapeFieldC f.data ++ ',' :: (rowCharsC fs ++ '\r' :: '\n' :: t) := by
          simp
        rw [hassoc,
          scan_field f.data row (',' :: (rowCharsC fs ++ '\r' :: '\n' :: t))
            (Or.inr (Or.inl rfl)),
          scan_n_comma, ih (row ++ [endField f.data.reverse]) t hfs]
        simp [endField, string_mk_data]

/-- The scanner inverts the serialiser on any nonempty list of nonempty
records. -/
theorem scan_rows (rows : List (List String)) :
    rows ≠ [] → (∀ r ∈ rows, r ≠ []) →
      scanRecords ScanMode.normal [] [] (papaUnparseRows rows) = rows := by
  induction rows with
  | nil => intro h _; exact absurd rfl h
  | cons r rs ih =>
      intro _ hr
      by_cases hrs : rs = []
      · subst hrs
        have h1 : papaUnparseRows [r] = rowCharsC r := by
          simp [papaUnparseRows, List.intercalate]
        rw [h1, scan_row_last r [] (hr r (List.mem_cons_self r []))]
        simp
      · have h1 : papaUnparseRows (r :: rs) =
            rowCharsC r ++ '\r' :: '\n' :: papaUnparseRows rs := by
          cases rs with
          | nil => exact absurd rfl hrs
          | cons r2 rs2 =>
              simp [papaUnparseRows, List.intercalate, List.intersperse_cons_cons]
        rw [h1, scan_row_mid r [] (papaUnparseRows rs) (hr r (List.mem_cons_self r rs)),
          ih hrs (fun x hx => hr x (List.mem_cons_of_mem _ hx))]
        simp

/-- Parsing an exported nonempty ledger yields the header row followed by
one row per transaction. -/
theorem papaParse_export (txs : List Transaction) (h : txs ≠ []) :
    papaParse (exportCSV txs).data =
      ["description", "amount", "category"] :: txs.map txRow := by
  rw [exportCSV, if_neg h]
  show papaParse (papaUnparseRows (["description", "amount", "category"] :: txs.map txRow)) = _
  have hne : papaUnparseRows (["description", "amount", "category"] :: txs.map txRow) ≠ [] := by
    cases hm : txs.map txRow with
    | nil => simp [hm, papaUnparseRows, List.intercalate]; decide
    | cons r rs =>
        cases hrow : rowCharsC ["description", "amount", "category"] with
        | nil =>
            exfalso
            have hrne : rowCharsC ["description", "amount", "category"] ≠ [] := by decide
            exact hrne hrow
        | cons c cs =>
            simp [papaUnparseRows, List.intercalate, List.intersperse_cons_cons, hrow]
  rw [papaParse, if_neg hne]
  apply scan_rows
  · simp
  · intro r hr
    rcases List.mem_cons.mp hr with h1 | h1
    · subst h1; simp
    · obtain ⟨tx, -, rfl⟩ := List.mem_map.mp h1
      simp [txRow]

/-- C2 (amended): exporting a ledger whose categories are all non-blank
and whose amounts survive the numeric round trip, then importing the
produced CSV, reproduces exactly the original transaction sequence. -/
theorem c2_export_import_round_trip (txs : List Transaction)
    (hnum : ∀ tx ∈ txs, parseFloatJS (jsNumToString tx.amount) = tx.amount)
    (hcat : ∀ tx ∈ txs, tx.category ≠ "") :
    importCSV (exportCSV txs) = txs := by
  by_cases hnil : txs = []
  · subst hnil; rfl
  · rw [importCSV, papaParse_export txs hnil]
    show (txs.map txRow).map _ = txs
    rw [List.map_map]
    have hmap : ∀ tx ∈ txs,
        ((fun row =>
            ({ description :=
                 (rowLookup ["description", "amount", "category"] row "description").getD ""
               amount :=
                 parseFloatJS ((rowLookup ["description", "amount", "category"] row "amount").getD "")
               category :=
                 if (rowLookup ["description", "amount", "category"] row "category").getD "" = ""
                 then "Other"
                 else (rowLookup ["description", "amount", "category"] row "category").getD "" } :
              Transaction)) ∘ txRow) tx = tx := by
      intro tx htx
      show ({ description := tx.description
              amount := parseFloatJS (jsNumToString tx.amount)
              category := if tx.category = "" then "Other" else tx.category } : Transaction) = tx
      rw [hnum tx htx, if_neg (hcat tx htx)]
    rw [List.map_congr_left hmap]
    simp

/-- C2 counterexample: the round trip as claimed for every ledger fails
on a blank category — the import turns it into "Other". -/
theorem c2_claim_false_blank_category :
    importCSV (exportCSV [⟨"Lunch", num 12, ""⟩]) ≠ [⟨"Lunch", num 12, ""⟩] := by decide

/-- C2 witness: a ledger exercising quoting (comma, quote, newline,
leading and trailing spaces) and a NaN amount round-trips exactly. -/
theorem c2_round_trip_witness :
    importCSV (exportCSV
        [⟨"Coffee, \"large\"\n", num (mkRat (-9) 2), "Food"⟩, ⟨" tea ", nan, "Other"⟩]) =
      [⟨"Coffee, \"large\"\n", num (mkRat (-9) 2), "Food"⟩, ⟨" tea ", nan, "Other"⟩] :=
  c2_export_import_round_trip
    [⟨"Coffee, \"large\"\n", num (mkRat (-9) 2), "Food"⟩, ⟨" tea ", nan, "Other"⟩]
    (by decide) (by decide)
